import Mathlib

/-!
The Tcl/Tk bridge of scid-up (`src/ui_tcltk.h`, `namespace UI_impl`)

A shallow embedding of the header's marshalling code: the value encoders
(`ObjMaker`), the ordered value builder (`class List`), the result reporter
(`Result`, `ResultHelper`), the calling-convention adapter
(`LegacyCmdFromObjv`) and the progress bridge (`tcl_Progress`).

The Tcl library itself is outside the repository.  Its primitives are modelled
by what the Tcl manual documents about them, on an explicit interpreter state.
-/

namespace UI_impl

/-! ## Tcl values and the interpreter state -/

/-- A Tcl value (`Tcl_Obj`), identified by the constructor call that made it.
The payload of a double is `some q` for the finite binary64 number whose exact
value is `q`, and `none` for a double that is not finite (an infinity or a
NaN). -/
inductive TclObj where
  | wideInt (v : Int)
  | double (v : Option ℚ)
  | string (s : String)
  | list (elems : List TclObj)

/-- A `Tcl_Obj*`: `none` is the null pointer. -/
abbrev ObjPtr := Option TclObj

/-- A reference-count call issued on a value. -/
inductive RefEvent where
  | incr (o : TclObj)
  | decr (o : TclObj)

/-- The state behind a `Tcl_Interp*`: the call result, the error-code channel,
and two logs, oldest entry first: the commands handed to `Tcl_EvalObjv` and the
`Tcl_IncrRefCount` / `Tcl_DecrRefCount` calls made by the bridge. -/
structure Interp where
  result : TclObj
  errorCode : Option TclObj
  evals : List (List TclObj)
  refs : List RefEvent

/-- Embeds `typedef int UI_res_t`. -/
abbrev UI_res_t := Int

/-- Embeds `typedef ClientData UI_extra_t`: an untyped pointer. -/
abbrev UI_extra_t := Nat

/-- Embeds `typedef Tcl_Interp* UI_handle_t`: the interpreter is threaded explicitly. -/
abbrev UI_handle_t := Interp

/-- Tcl's completion code `TCL_OK`. -/
def TCL_OK : UI_res_t := 0

/-- Tcl's completion code `TCL_ERROR`. -/
def TCL_ERROR : UI_res_t := 1

/-- Models Tcl's `Tcl_NewWideIntObj`. -/
def Tcl_NewWideIntObj (v : Int) : TclObj := TclObj.wideInt v

/-- Models Tcl's `Tcl_NewDoubleObj`. -/
def Tcl_NewDoubleObj (v : Option ℚ) : TclObj := TclObj.double v

/-- Models Tcl's `Tcl_NewStringObj`. -/
def Tcl_NewStringObj (s : String) : TclObj := TclObj.string s

/-- Reads `p[0] .. p[n-1]` through null checks; `none` when an entry lies
outside the buffer or is a null pointer. -/
def readObjs (p : List ObjPtr) : Nat → Nat → Option (List TclObj)
  | _, 0 => some []
  | i, n + 1 =>
    match p[i]? with
    | some (some o) =>
      match readObjs p (i + 1) n with
      | some rest => some (o :: rest)
      | none => none
    | _ => none

/-- Models Tcl's `Tcl_NewListObj(objc, objv)`: a list value of `objv[0] .. objv[objc-1]`,
the empty list when `objc <= 0`. -/
def Tcl_NewListObj (objc : Int) (objv : List ObjPtr) : Option TclObj :=
  match readObjs objv 0 objc.toNat with
  | some elems => some (TclObj.list elems)
  | none => none

/-- Models Tcl's `Tcl_IncrRefCount`. -/
def Tcl_IncrRefCount (ti : Interp) (o : TclObj) : Interp :=
  { ti with refs := ti.refs ++ [RefEvent.incr o] }

/-- Models Tcl's `Tcl_DecrRefCount`. -/
def Tcl_DecrRefCount (ti : Interp) (o : TclObj) : Interp :=
  { ti with refs := ti.refs ++ [RefEvent.decr o] }

/-- Models Tcl's `Tcl_ResetResult`: the result becomes the empty value and the error state
kept for `Tcl_SetObjErrorCode` is cleared. -/
def Tcl_ResetResult (ti : Interp) : Interp :=
  { ti with result := TclObj.string "", errorCode := none }

/-- Models Tcl's `Tcl_SetObjResult`. -/
def Tcl_SetObjResult (ti : Interp) (o : TclObj) : Interp :=
  { ti with result := o }

/-- Models Tcl's `Tcl_SetObjErrorCode`. -/
def Tcl_SetObjErrorCode (ti : Interp) (o : TclObj) : Interp :=
  { ti with errorCode := some o }

/-- What the interpreter answers when a command is evaluated: its completion
code, given the state and the command words.  The script behind a command is
outside the bridge, so it is a parameter. -/
abbrev Script := Interp → List TclObj → UI_res_t

/-- Models Tcl's `Tcl_EvalObjv(ti, objc, objv, 0)` on the words `objv[0] .. objv[objc-1]`:
the command is logged and the script's completion code returned. -/
def Tcl_EvalObjv (script : Script) (ti : Interp) (objv : List TclObj) : Interp × UI_res_t :=
  ({ ti with evals := ti.evals ++ [objv] }, script ti objv)

/-! ## Value encoders (`ObjMaker`) -/

/-- Models `std::numeric_limits<int>::max()` for the 32-bit `int`. -/
def INT_MAX : Int := 2147483647

/-- Models `static_cast<int>(v)` of an unsigned value: reduction modulo `2^32` read as
a two's complement 32-bit number. -/
def static_cast_int (v : Nat) : Int :=
  if v % 4294967296 < 2147483648 then (v % 4294967296 : Nat) else (v % 4294967296 : Nat) - 4294967296

/-- Modelled from the spec: the `ASSERT` macro, whose definition is not in this
header.  A failed assertion fails fast: the call produces nothing. -/
def ASSERT {α : Type} (cond : Bool) (body : Option α) : Option α :=
  if cond then body else none

/-- Embeds `ObjMaker(bool)`. -/
def ObjMaker_bool (v : Bool) : TclObj :=
  Tcl_NewWideIntObj (if v then 1 else 0)

/-- Embeds `ObjMaker(int)`. -/
def ObjMaker_int (v : Int) : TclObj :=
  Tcl_NewWideIntObj v

/-- Embeds `ObjMaker(unsigned int)`. -/
def ObjMaker_uint (v : Nat) : Option TclObj :=
  ASSERT (decide ((v : Int) ≤ INT_MAX)) (some (Tcl_NewWideIntObj (static_cast_int v)))

/-- Embeds `ObjMaker(unsigned long)`. -/
def ObjMaker_ulong (v : Nat) : Option TclObj :=
  ASSERT (decide ((v : Int) ≤ INT_MAX)) (some (Tcl_NewWideIntObj (static_cast_int v)))

/-- Embeds `ObjMaker(unsigned long long)`. -/
def ObjMaker_ulonglong (v : Nat) : Option TclObj :=
  ASSERT (decide ((v : Int) ≤ INT_MAX)) (some (Tcl_NewWideIntObj (static_cast_int v)))

/-- Embeds `ObjMaker(double)`. -/
def ObjMaker_double (v : Option ℚ) : TclObj :=
  Tcl_NewDoubleObj v

/-- Embeds `ObjMaker(const char*)`. -/
def ObjMaker_cstr (s : String) : TclObj :=
  Tcl_NewStringObj s

/-- Embeds `ObjMaker(const std::string&)`: the length assertion compares the byte
length with `INT_MAX`. -/
def ObjMaker_string (s : String) : Option TclObj :=
  ASSERT (decide ((s.utf8ByteSize : Int) ≤ INT_MAX)) (some (Tcl_NewStringObj s))

/-! ## Result reporter -/

/-- Modelled from the spec: the native status code type `errorT`, declared
outside this header; a small enumerated value. -/
abbrev errorT := Nat

/-- Embeds `ResultHelper`.  The success sentinel `OK` is declared outside this header
and is a parameter. -/
def ResultHelper (OK : errorT) (ti : UI_handle_t) (res : errorT) : Interp × UI_res_t :=
  if res = OK then (ti, TCL_OK)
  else (Tcl_SetObjErrorCode ti (Tcl_NewWideIntObj res), TCL_ERROR)

/-- Embeds `Result(UI_handle_t, errorT)`. -/
def Result (OK : errorT) (ti : UI_handle_t) (res : errorT) : Interp × UI_res_t :=
  ResultHelper OK (Tcl_ResetResult ti) res

/-- Embeds `Result(UI_handle_t, errorT, const T&)`.  `objMaker` is the `ObjMaker`
overload chosen for `T`; when its assertion fails nothing is produced. -/
def ResultValue {T : Type} (objMaker : T → Option TclObj) (OK : errorT) (ti : UI_handle_t)
    (res : errorT) (value : T) : Option (Interp × UI_res_t) :=
  match objMaker value with
  | some o => some (ResultHelper OK (Tcl_SetObjResult ti o) res)
  | none => none

/-! ## Ordered value builder (`class List`) -/

/-- Embeds `class List`.  `list_` is the buffer that the pointer of that name
addresses, either the six-slot `stackBuf_` or the heap array; `onHeap` records
`list_ != stackBuf_`.  Slots never written hold `none`.  The count `i_` is a
32-bit `int`: `push_back`, the only operation that increments it, has no
result when the increment would pass `INT_MAX`. -/
structure UIList where
  list_ : List ObjPtr
  i_ : Int
  onHeap : Bool

/-- Embeds `List::List(size_t max_size)`. -/
def UIList.init (max_size : Nat) : UIList :=
  let stackBuf_size := 6
  if max_size > stackBuf_size then
    { list_ := List.replicate max_size none, i_ := 0, onHeap := true }
  else
    { list_ := List.replicate stackBuf_size none, i_ := 0, onHeap := false }

/-- The loop of `List::clear`: `Tcl_DecrRefCount(list_[i])` for `n` successive
indices from `i`.  Reading outside the buffer or releasing a null pointer is
undefined behaviour: `none`. -/
def decrLoop (list_ : List ObjPtr) : Nat → Nat → Interp → Option Interp
  | _, 0, ti => some ti
  | i, n + 1, ti =>
    match list_[i]? with
    | some (some o) => decrLoop list_ (i + 1) n (Tcl_DecrRefCount ti o)
    | _ => none

/-- Embeds `List::clear()`. -/
def UIList.clear (self : UIList) (ti : Interp) : Option (UIList × Interp) :=
  match decrLoop self.list_ 0 self.i_.toNat ti with
  | some ti1 => some ({ self with i_ := 0 }, ti1)
  | none => none

/-- Embeds `List::push_back(Tcl_Obj* value)`, that is `list_[i_++] = value`.
A write outside the buffer is undefined behaviour, and so is the increment of
the `int` count `i_` at `INT_MAX`: `none` in both cases. -/
def UIList.push_back (self : UIList) (value : ObjPtr) : Option UIList :=
  ASSERT value.isSome
    (if 0 ≤ self.i_ ∧ self.i_.toNat < self.list_.length then
      if self.i_ < INT_MAX then
        some { self with list_ := self.list_.set self.i_.toNat value, i_ := self.i_ + 1 }
      else none
    else none)

/-- Embeds `ObjMaker(const List& v)`: returns the composite and the emptied builder. -/
def ObjMaker_List (v : UIList) : Option (TclObj × UIList) :=
  match Tcl_NewListObj v.i_ v.list_ with
  | some res => some (res, { v with i_ := 0 })
  | none => none

/-- Embeds `template <typename T> List::push_back(const T& value)`, with the
`ObjMaker` overload chosen for `T`. -/
def UIList.push_back_value {T : Type} (objMaker : T → Option TclObj) (self : UIList)
    (value : T) : Option UIList :=
  match objMaker value with
  | some o => self.push_back (some o)
  | none => none

/-- Embeds `List::~List()`: `clear()`, then the heap buffer is freed. -/
def UIList.destroy (self : UIList) (ti : Interp) : Option Interp :=
  match self.clear ti with
  | some (_, ti1) => some ti1
  | none => none

/-- One call on a builder: `push_back` of a (non-null) handle, `clear()`, or
`ObjMaker(list)`. -/
inductive ListOp where
  | push_back (value : TclObj)
  | clear
  | ObjMaker

/-- A builder in use: the builder, the interpreter state, and the composites
returned by `ObjMaker(list)` so far, oldest first. -/
structure ListRun where
  list : UIList
  ti : Interp
  made : List TclObj

/-- Performs one call. -/
def ListRun.step (s : ListRun) : ListOp → Option ListRun
  | ListOp.push_back value =>
    match s.list.push_back (some value) with
    | some l => some { s with list := l }
    | none => none
  | ListOp.clear =>
    match s.list.clear s.ti with
    | some (l, ti1) => some { s with list := l, ti := ti1 }
    | none => none
  | ListOp.ObjMaker =>
    match ObjMaker_List s.list with
    | some (res, l) => some { s with list := l, made := s.made ++ [res] }
    | none => none

/-- Performs a sequence of calls, in order. -/
def runOps (s : ListRun) : List ListOp → Option ListRun
  | [] => some s
  | op :: ops =>
    match s.step op with
    | some s1 => runOps s1 ops
    | none => none

/-- A builder's whole life: construction with `max_size`, the calls `ops`, and
destruction.  Yields the final interpreter state and the composites made. -/
def lifetime (max_size : Nat) (ti : Interp) (ops : List ListOp) : Option (Interp × List TclObj) :=
  match runOps { list := UIList.init max_size, ti := ti, made := [] } ops with
  | some s =>
    match s.list.destroy s.ti with
    | some ti1 => some (ti1, s.made)
    | none => none
  | none => none

/-! ## Calling-convention adapter -/

/-- A legacy handler `UI_res_t (*)(UI_extra_t, UI_handle_t, int, const char**)`:
it receives the argument buffer (a null entry is `none`) and may change the
interpreter. -/
abbrev LegacyHandler := UI_extra_t → UI_handle_t → Int → List (Option String) → Interp × UI_res_t

/-- The loop of `LegacyCmdFromObjv`: `argv[i] = Tcl_GetString(objv[i])` for `n`
successive indices from `i`.  An access outside either array is undefined
behaviour: `none`. -/
def fillArgv (Tcl_GetString : TclObj → String) (objv : List TclObj) :
    Nat → Nat → List (Option String) → Option (List (Option String))
  | _, 0, argv => some argv
  | i, n + 1, argv =>
    match objv[i]? with
    | some o =>
      if i < argv.length then
        fillArgv Tcl_GetString objv (i + 1) n (argv.set i (some (Tcl_GetString o)))
      else none
    | none => none

/-- Embeds `LegacyCmdFromObjv`.  `Tcl_GetString` is the interpreter's string
representation of a value. -/
def LegacyCmdFromObjv (Tcl_GetString : TclObj → String) (fn : LegacyHandler) (cd : UI_extra_t)
    (ti : UI_handle_t) (objc : Int) (objv : List TclObj) : Option (Interp × UI_res_t) :=
  let stackArgv : List (Option String) := List.replicate 16 none
  let argv := if objc > 16 then List.replicate objc.toNat none else stackArgv
  match fillArgv Tcl_GetString objv 0 objc.toNat argv with
  | some argv1 => some (fn cd ti objc argv1)
  | none => none

/-! ## Progress bridge -/

/-- Models `std::chrono::milliseconds{n}` in ticks of the clock; the clock counts
nanoseconds. -/
def milliseconds (n : Int) : Int := n * 1000000

/-- Embeds `class tcl_Progress`: `timer_` is a clock reading in ticks.  The member
`ti_` is the interpreter, threaded explicitly. -/
structure tcl_Progress where
  timer_ : Int

/-- The constructor `tcl_Progress(ti)`; `now` is the reading of `clock::now()`
that initialises `timer_`. -/
def tcl_Progress.init (now : Int) : tcl_Progress :=
  { timer_ := now }

/-! ### binary64 arithmetic

Finite doubles are given by their exact rational value; every operation rounds
its exact result to the nearest binary64 number, ties to even.  The exponent
range is not limited: the operands met here are `size_t` values, below `2^64`,
and their quotients, all inside the normal range of binary64. -/

/-- Rounds to the nearest integer, a tie to the even neighbour. -/
def roundHalfEven (x : ℚ) : Int :=
  if x - ⌊x⌋ < 1 / 2 then ⌊x⌋
  else if 1 / 2 < x - ⌊x⌋ then ⌊x⌋ + 1
  else if ⌊x⌋ % 2 = 0 then ⌊x⌋ else ⌊x⌋ + 1

/-- Rounds a positive number to 53 significant bits: with `e` the exponent of
its last place, `2^52 <= x / 2^e < 2^53`, the quotient `x / 2^e` is rounded to
an integer. -/
def roundPos (x : ℚ) : ℚ :=
  (roundHalfEven (x / 2 ^ (Int.log 2 x - 52)) : ℚ) * 2 ^ (Int.log 2 x - 52)

/-- The binary64 number nearest to `x`, ties to even. -/
def toBinary64 (x : ℚ) : ℚ :=
  if 0 < x then roundPos x else if x < 0 then - roundPos (-x) else 0

/-- The conversion of a `size_t` operand to `double`. -/
def double_of_size_t (n : Nat) : ℚ :=
  toBinary64 (n : ℚ)

/-- The product of two finite doubles. -/
def double_mul (a b : ℚ) : ℚ :=
  toBinary64 (a * b)

/-- The quotient of two finite doubles; a division by zero gives an infinity or
a NaN, which is `none`. -/
def double_div (a b : ℚ) : Option ℚ :=
  if b = 0 then none else some (toBinary64 (a / b))

/-- The words `cmd[0] .. cmd[n-1]` that `report` builds; the progress value is
`total ? (1.0 * done / total) : 1`. -/
def progressCmd (done total : Nat) (msg : Option String) : List TclObj :=
  let cmd0 := Tcl_NewStringObj "::progressCallBack"
  let cmd1 := Tcl_NewDoubleObj
    (if total ≠ 0 then double_div (double_mul 1 (double_of_size_t done)) (double_of_size_t total)
      else some 1)
  match msg with
  | some m => [cmd0, cmd1, Tcl_NewStringObj m]
  | none => [cmd0, cmd1]

/-- Embeds `tcl_Progress::report(done, total, msg)`; `now` is the reading of
`clock::now()` taken by the call and a null `msg` is `none`. -/
def tcl_Progress.report (script : Script) (self : tcl_Progress) (ti : Interp) (now : Int)
    (done total : Nat) (msg : Option String) : tcl_Progress × Interp × Bool :=
  if done ≠ total ∧ now - self.timer_ < milliseconds 30 then
    (self, ti, true)
  else
    let cmd := progressCmd done total msg
    let ti1 := cmd.foldl Tcl_IncrRefCount ti
    let r := Tcl_EvalObjv script ti1 cmd
    let ti2 := cmd.foldl Tcl_DecrRefCount r.1
    ({ self with timer_ := now }, ti2, decide (r.2 = TCL_OK))

/-- Embeds `CreateProgress(ti)`; `now` is the clock reading at construction.  An
empty `Progress` is `none`. -/
def CreateProgress (script : Script) (ti : UI_handle_t) (now : Int) : Interp × Option tcl_Progress :=
  let cmd := [Tcl_NewStringObj "::progressCallBack", Tcl_NewStringObj "init"]
  let ti1 := cmd.foldl Tcl_IncrRefCount ti
  let r := Tcl_EvalObjv script ti1 cmd
  let ti2 := cmd.foldl Tcl_DecrRefCount r.1
  if r.2 ≠ TCL_OK then (ti2, none) else (ti2, some (tcl_Progress.init now))


/-- A newly created interpreter: empty result, no error code, nothing logged. -/
def Interp.fresh : Interp :=
  { result := TclObj.string "", errorCode := none, evals := [], refs := [] }

/-- A newly constructed bridge (construction time `t0`) that receives exactly
two reports, at times `t1` and `t2`: the interpreter state after the first and
after the second report. -/
def twoReports (script : Script) (ti : Interp) (t0 t1 : Int) (d1 n1 : Nat) (m1 : Option String)
    (t2 : Int) (d2 n2 : Nat) (m2 : Option String) : Interp × Interp :=
  let r1 := (tcl_Progress.init t0).report script ti t1 d1 n1 m1
  let r2 := r1.1.report script r1.2.1 t2 d2 n2 m2
  (r1.2.1, r2.2.1)

/-! ## The builder's calls, seen from the caller

These definitions follow the wording of the builder's contract; the theorems
below compare them with what the code does. -/

/-- The handles the builder holds after the calls `ops`, when it held `held`
before: those pushed since the last `clear()` or `ObjMaker(list)`. -/
def heldFrom (held : List TclObj) : List ListOp → List TclObj
  | [] => held
  | ListOp.push_back v :: ops => heldFrom (held ++ [v]) ops
  | ListOp.clear :: ops => heldFrom [] ops
  | ListOp.ObjMaker :: ops => heldFrom [] ops

/-- The handles held at the `clear()` calls of `ops`, in order. -/
def clearedFrom (held : List TclObj) : List ListOp → List TclObj
  | [] => []
  | ListOp.push_back v :: ops => clearedFrom (held ++ [v]) ops
  | ListOp.clear :: ops => held ++ clearedFrom [] ops
  | ListOp.ObjMaker :: ops => clearedFrom [] ops

/-- The groups of handles held at the `ObjMaker(list)` calls of `ops`, in
order. -/
def compositesFrom (held : List TclObj) : List ListOp → List (List TclObj)
  | [] => []
  | ListOp.push_back v :: ops => compositesFrom (held ++ [v]) ops
  | ListOp.clear :: ops => compositesFrom [] ops
  | ListOp.ObjMaker :: ops => held :: compositesFrom [] ops

/-- Whether the number of handles held at one time stays at most `m` during
`ops`, starting from `held` handles. -/
def withinBound (m : Nat) (held : Nat) : List ListOp → Bool
  | [] => true
  | ListOp.push_back _ :: ops => decide (held + 1 ≤ m) && withinBound m (held + 1) ops
  | ListOp.clear :: ops => withinBound m 0 ops
  | ListOp.ObjMaker :: ops => withinBound m 0 ops

/-- What happens to the handles held when `ops` starts: `true` when the next
call that is not a `push_back` is a `clear()`, or there is none and the
destructor runs; `false` when it is `ObjMaker(list)`. -/
def nextReleases : List ListOp → Bool
  | [] => true
  | ListOp.push_back _ :: ops => nextReleases ops
  | ListOp.clear :: _ => true
  | ListOp.ObjMaker :: _ => false

/-- Every `push_back` of `ops`, in order, with the fate of the pushed handle:
`true` when it is still held at a `clear()` or at destruction, `false` when it
is handed to a composite first. -/
def pushFates : List ListOp → List (TclObj × Bool)
  | [] => []
  | ListOp.push_back v :: ops => (v, nextReleases ops) :: pushFates ops
  | ListOp.clear :: ops => pushFates ops
  | ListOp.ObjMaker :: ops => pushFates ops

/-- The pushed handles still held at a `clear()` or at destruction. -/
def releasedPushes (ops : List ListOp) : List TclObj :=
  ((pushFates ops).filter (fun p => p.2)).map (fun p => p.1)

/-- The pushed handles handed to a composite. -/
def transferredPushes (ops : List ListOp) : List TclObj :=
  ((pushFates ops).filter (fun p => !p.2)).map (fun p => p.1)

/-- The handles pushed by `ops`, in order. -/
def pushedHandles : List ListOp → List TclObj
  | [] => []
  | ListOp.push_back v :: ops => v :: pushedHandles ops
  | ListOp.clear :: ops => pushedHandles ops
  | ListOp.ObjMaker :: ops => pushedHandles ops

/-- The builder `l` holds exactly the handles `held`: its count is their
number and its first slots are these handles, in order. -/
def Holds (l : UIList) (held : List TclObj) : Prop :=
  l.i_ = (held.length : Int) ∧ ∀ j, j < held.length → l.list_[j]? = (held[j]?).map some

/-- The capacity of the buffer of a builder constructed with `max_size`. -/
def capacity (max_size : Nat) : Nat :=
  (UIList.init max_size).list_.length

/-- Reference-count increments leave the evaluation log alone. -/
theorem foldl_incr_evals (cmd : List TclObj) (ti : Interp) :
    (cmd.foldl Tcl_IncrRefCount ti).evals = ti.evals := by
  induction cmd generalizing ti with
  | nil => rfl
  | cons o rest ih => simp [List.foldl, ih, Tcl_IncrRefCount]

/-- Reference-count decrements leave the evaluation log alone. -/
theorem foldl_decr_evals (cmd : List TclObj) (ti : Interp) :
    (cmd.foldl Tcl_DecrRefCount ti).evals = ti.evals := by
  induction cmd generalizing ti with
  | nil => rfl
  | cons o rest ih => simp [List.foldl, ih, Tcl_DecrRefCount]

/-- A report that passes the throttle test logs exactly its command and
stores `now`. -/
theorem report_forwarded_evals (script : Script) (self : tcl_Progress) (ti : Interp) (now : Int)
    (done total : Nat) (msg : Option String)
    (h : ¬ (done ≠ total ∧ now - self.timer_ < milliseconds 30)) :
    (self.report script ti now done total msg).2.1.evals
      = ti.evals ++ [progressCmd done total msg] ∧
    (self.report script ti now done total msg).1.timer_ = now := by
  simp only [tcl_Progress.report, if_neg h, foldl_decr_evals, Tcl_EvalObjv, foldl_incr_evals,
    and_self]

/-- C6: an unsigned input above `INT_MAX` fails the encoder's assertion and
produces no value; an unsigned input up to `INT_MAX` is encoded as the integer
with exactly that value (the cast to `int` keeps it); `bool` and `int` inputs
are encoded as themselves, `false` and `true` as 0 and 1. -/
theorem ObjMaker_integer_values (v : Nat) (b : Bool) (i : Int) :
    (INT_MAX < (v : Int) →
      ObjMaker_uint v = none ∧ ObjMaker_ulong v = none ∧ ObjMaker_ulonglong v = none) ∧
    ((v : Int) ≤ INT_MAX →
      static_cast_int v = (v : Int) ∧
      ObjMaker_uint v = some (TclObj.wideInt v) ∧
      ObjMaker_ulong v = some (TclObj.wideInt v) ∧
      ObjMaker_ulonglong v = some (TclObj.wideInt v)) ∧
    ObjMaker_bool b = TclObj.wideInt (if b then 1 else 0) ∧
    ObjMaker_bool false = TclObj.wideInt 0 ∧
    ObjMaker_bool true = TclObj.wideInt 1 ∧
    ObjMaker_int i = TclObj.wideInt i := by
  refine ⟨?_, ?_, rfl, rfl, rfl, rfl⟩
  · intro h
    have h1 : ¬ ((v : Int) ≤ INT_MAX) := not_le.mpr h
    simp [ObjMaker_uint, ObjMaker_ulong, ObjMaker_ulonglong, ASSERT, h1]
  · intro h
    have hv : v < 2147483648 := by
      unfold INT_MAX at h
      omega
    have hc : static_cast_int v = (v : Int) := by
      unfold static_cast_int
      have hm : v % 4294967296 = v := Nat.mod_eq_of_lt (by omega)
      rw [hm, if_pos hv]
    simp [ObjMaker_uint, ObjMaker_ulong, ObjMaker_ulonglong, ASSERT, h, hc, Tcl_NewWideIntObj]

/-- C6, at the two sides of the bound: `2^31 - 1` is encoded, `2^31` is not. -/
theorem ObjMaker_integer_values_witness :
    ObjMaker_uint 2147483647 = some (TclObj.wideInt 2147483647) ∧
    ObjMaker_ulonglong 2147483648 = none :=
  ⟨((ObjMaker_integer_values 2147483647 true 0).2.1 (by decide)).2.1,
   ((ObjMaker_integer_values 2147483648 true 0).1 (by decide)).2.2⟩

/-- C4: `Result(ti, res)` leaves the call result empty whatever it held before;
it returns `TCL_OK` exactly when `res` is the success code, and for any other
code it sets the error code to `res` and returns `TCL_ERROR`. -/
theorem Result_status_only (OK : errorT) (ti : Interp) (res : errorT) :
    (Result OK ti res).1.result = TclObj.string "" ∧
    ((Result OK ti res).2 = TCL_OK ↔ res = OK) ∧
    (res ≠ OK →
      (Result OK ti res).1.errorCode = some (TclObj.wideInt res) ∧
      (Result OK ti res).2 = TCL_ERROR) := by
  by_cases h : res = OK
  · simp [Result, ResultHelper, Tcl_ResetResult, h]
  · simp [Result, ResultHelper, Tcl_ResetResult, Tcl_SetObjErrorCode, Tcl_NewWideIntObj, h,
      TCL_OK, TCL_ERROR]

/-- C4, for the failure code 7 on an interpreter holding a result. -/
theorem Result_status_only_witness :
    (Result 0 { Interp.fresh with result := TclObj.wideInt 42 } 7).1.errorCode
        = some (TclObj.wideInt (7 : Nat)) ∧
    (Result 0 { Interp.fresh with result := TclObj.wideInt 42 } 7).2 = TCL_ERROR :=
  (Result_status_only 0 { Interp.fresh with result := TclObj.wideInt 42 } 7).2.2 (by decide)

/-- C3, as stated, fails: on an interpreter whose error code is already set
to 7, `Result(ti, OK, 5)` returns `TCL_OK` and the error code is still 7, not
unset. -/
theorem ResultValue_success_keeps_errorCode :
    ∃ out, ResultValue (fun v => some (ObjMaker_int v)) 0
        { Interp.fresh with errorCode := some (TclObj.wideInt 7) } 0 5 = some out ∧
      out.2 = TCL_OK ∧ out.1.errorCode = some (TclObj.wideInt 7) ∧ out.1.errorCode ≠ none :=
  ⟨_, rfl, rfl, rfl, by simp [ResultHelper, Tcl_SetObjResult, Interp.fresh]⟩

/-- C3, amended: for a value the encoder accepts, `Result(ti, res, v)` leaves
the call result equal to `ObjMaker(v)` for every status; for the success code
it returns `TCL_OK` and leaves the error code as it was before the call (unset
when it was unset); for any other code it returns `TCL_ERROR` and leaves the
error code set to `res`. -/
theorem ResultValue_channels {T : Type} (objMaker : T → Option TclObj) (OK : errorT)
    (ti : Interp) (res : errorT) (value : T) (o : TclObj) (h : objMaker value = some o) :
    ∃ out, ResultValue objMaker OK ti res value = some out ∧
      out.1.result = o ∧
      (res = OK → out.2 = TCL_OK ∧ out.1.errorCode = ti.errorCode ∧
        (ti.errorCode = none → out.1.errorCode = none)) ∧
      (res ≠ OK → out.2 = TCL_ERROR ∧ out.1.errorCode = some (TclObj.wideInt res)) := by
  refine ⟨ResultHelper OK (Tcl_SetObjResult ti o) res, ?_, ?_, ?_, ?_⟩
  · simp [ResultValue, h]
  · by_cases hr : res = OK <;> simp [ResultHelper, Tcl_SetObjResult, Tcl_SetObjErrorCode, hr]
  · intro hr
    simp [ResultHelper, Tcl_SetObjResult, hr]
  · intro hr
    simp [ResultHelper, Tcl_SetObjResult, Tcl_SetObjErrorCode, Tcl_NewWideIntObj, hr]

/-- C3, amended, for the `unsigned int` encoder at value 5 with failure code 7
on a new interpreter. -/
theorem ResultValue_channels_witness :
    ObjMaker_uint 5 = some (TclObj.wideInt 5) ∧
    ∃ out, ResultValue ObjMaker_uint 0 Interp.fresh 7 5 = some out ∧
      out.1.result = TclObj.wideInt 5 ∧
      ((7 : errorT) = 0 → out.2 = TCL_OK ∧ out.1.errorCode = Interp.fresh.errorCode ∧
        (Interp.fresh.errorCode = none → out.1.errorCode = none)) ∧
      ((7 : errorT) ≠ 0 → out.2 = TCL_ERROR ∧ out.1.errorCode = some (TclObj.wideInt (7 : Nat))) :=
  ⟨rfl, ResultValue_channels ObjMaker_uint 0 Interp.fresh 7 5 (TclObj.wideInt 5) rfl⟩

/-- C1: a report with `done != total` made less than 30 ms after the stored
timestamp evaluates nothing, keeps the timestamp and returns true; any other
report evaluates the callback command exactly once, stores `now` as the
timestamp, and returns true exactly when that evaluation returned `TCL_OK`. -/
theorem report_throttle (script : Script) (self : tcl_Progress) (ti : Interp) (now : Int)
    (done total : Nat) (msg : Option String) :
    (done ≠ total ∧ now - self.timer_ < milliseconds 30 →
      (self.report script ti now done total msg).2.1 = ti ∧
      (self.report script ti now done total msg).2.1.evals = ti.evals ∧
      (self.report script ti now done total msg).1.timer_ = self.timer_ ∧
      (self.report script ti now done total msg).2.2 = true) ∧
    (¬ (done ≠ total ∧ now - self.timer_ < milliseconds 30) →
      (self.report script ti now done total msg).2.1.evals
        = ti.evals ++ [progressCmd done total msg] ∧
      (self.report script ti now done total msg).1.timer_ = now ∧
      ((self.report script ti now done total msg).2.2 = true ↔
        (Tcl_EvalObjv script ((progressCmd done total msg).foldl Tcl_IncrRefCount ti)
          (progressCmd done total msg)).2 = TCL_OK)) := by
  constructor
  · intro h
    simp [tcl_Progress.report, h]
  · intro h
    refine ⟨(report_forwarded_evals script self ti now done total msg h).1,
      (report_forwarded_evals script self ti now done total msg h).2, ?_⟩
    simp only [tcl_Progress.report, if_neg h, decide_eq_true_eq]

/-- C1, at a report 10 ms after the timestamp (suppressed) and at one 30 ms
after it (forwarded), with a callback that fails. -/
theorem report_throttle_witness :
    ((tcl_Progress.init 0).report (fun _ _ => TCL_ERROR) Interp.fresh 10000000 1 2 none).2.1.evals
        = [] ∧
    ((tcl_Progress.init 0).report (fun _ _ => TCL_ERROR) Interp.fresh 10000000 1 2 none).2.2
        = true ∧
    ((tcl_Progress.init 0).report (fun _ _ => TCL_ERROR) Interp.fresh 30000000 1 2 none).2.1.evals
        = [] ++ [progressCmd 1 2 none] ∧
    ((tcl_Progress.init 0).report (fun _ _ => TCL_ERROR) Interp.fresh 30000000 1 2 none).1.timer_
        = 30000000 :=
  ⟨((report_throttle (fun _ _ => TCL_ERROR) (tcl_Progress.init 0) Interp.fresh 10000000 1 2
      none).1 (by decide)).2.1,
   ((report_throttle (fun _ _ => TCL_ERROR) (tcl_Progress.init 0) Interp.fresh 10000000 1 2
      none).1 (by decide)).2.2.2,
   ((report_throttle (fun _ _ => TCL_ERROR) (tcl_Progress.init 0) Interp.fresh 30000000 1 2
      none).2 (by decide)).1,
   ((report_throttle (fun _ _ => TCL_ERROR) (tcl_Progress.init 0) Interp.fresh 30000000 1 2
      none).2 (by decide)).2.1⟩

/-- On a positive number the exponent found by `Int.log` is the one between
whose powers of two the number lies. -/
theorem log2_eq (x : ℚ) (k : Int) (hx : 0 < x) (h1 : (2 : ℚ) ^ k ≤ x)
    (h2 : x < (2 : ℚ) ^ (k + 1)) : Int.log 2 x = k := by
  have a : k ≤ Int.log 2 x := (Int.zpow_le_iff_le_log (by norm_num) hx).mp (by exact_mod_cast h1)
  have b : Int.log 2 x < k + 1 :=
    (Int.lt_zpow_iff_log_lt (by norm_num) hx).mp (by exact_mod_cast h2)
  omega

/-- An integer rounds to itself. -/
theorem roundHalfEven_intCast (k : Int) : roundHalfEven (k : ℚ) = k := by
  simp [roundHalfEven]

/-- Rounding never goes below the floor. -/
theorem roundHalfEven_ge_floor (x : ℚ) : ⌊x⌋ ≤ roundHalfEven x := by
  unfold roundHalfEven
  split_ifs <;> omega

/-- A number that is a whole multiple of its last place is kept. -/
theorem roundPos_exact (x : ℚ) (k : Int) (h : x / 2 ^ (Int.log 2 x - 52) = (k : ℚ)) :
    roundPos x = x := by
  unfold roundPos
  rw [h, roundHalfEven_intCast, ← h]
  have : (2 : ℚ) ^ (Int.log 2 x - 52) ≠ 0 := zpow_ne_zero _ (by norm_num)
  field_simp

/-- A positive number rounds to a positive number. -/
theorem roundPos_pos (x : ℚ) (hx : 0 < x) : 0 < roundPos x := by
  unfold roundPos
  have hp : (0 : ℚ) < 2 ^ (Int.log 2 x - 52) := zpow_pos (by norm_num) _
  have hl : (2 : ℚ) ^ (Int.log 2 x) ≤ x := by
    have := Int.zpow_log_le_self (R := ℚ) (b := 2) (r := x) (by norm_num) hx
    exact_mod_cast this
  have hy : ((2 ^ 52 : Int) : ℚ) ≤ x / 2 ^ (Int.log 2 x - 52) := by
    rw [le_div_iff₀ hp]
    have e : ((2 ^ 52 : Int) : ℚ) * 2 ^ (Int.log 2 x - 52) = 2 ^ (Int.log 2 x) := by
      have c : ((2 ^ 52 : Int) : ℚ) = (2 : ℚ) ^ (52 : ℤ) := by norm_num
      rw [c, ← zpow_add₀ (by norm_num : (2 : ℚ) ≠ 0)]
      congr 1
      omega
    rw [e]
    exact hl
  have hf : (2 ^ 52 : Int) ≤ ⌊x / 2 ^ (Int.log 2 x - 52)⌋ := Int.le_floor.mpr hy
  have hr := roundHalfEven_ge_floor (x / 2 ^ (Int.log 2 x - 52))
  have hpos : (0 : Int) < roundHalfEven (x / 2 ^ (Int.log 2 x - 52)) := by
    have : (0 : Int) < 2 ^ 52 := by norm_num
    omega
  have : (0 : ℚ) < (roundHalfEven (x / 2 ^ (Int.log 2 x - 52)) : ℚ) := by exact_mod_cast hpos
  positivity

/-- A positive integer up to `2^53` is a binary64 number. -/
theorem roundPos_natCast (n : Nat) (h0 : 0 < n) (h : n ≤ 2 ^ 53) : roundPos (n : ℚ) = n := by
  have hL : Nat.log 2 n ≤ 53 := by
    have h1 : Nat.log 2 (2 ^ 53) = 53 := Nat.log_pow (by norm_num) 53
    have h2 := Nat.log_mono_right (b := 2) h
    rw [h1] at h2
    exact h2
  have hlog : Int.log 2 (n : ℚ) = (Nat.log 2 n : Int) := Int.log_natCast 2 n
  by_cases h53 : Nat.log 2 n = 53
  · have hn : n = 2 ^ 53 := by
      have := Nat.pow_log_le_self 2 (Nat.pos_iff_ne_zero.mp h0)
      rw [h53] at this
      omega
    apply roundPos_exact _ (2 ^ 52)
    rw [hlog, h53, hn]
    norm_num
  · have hle : Nat.log 2 n ≤ 52 := by omega
    apply roundPos_exact _ ((n * 2 ^ (52 - Nat.log 2 n) : Nat) : Int)
    rw [hlog]
    have e : ((Nat.log 2 n : Int) - 52) = - ((52 - Nat.log 2 n : Nat) : Int) := by omega
    rw [e, zpow_neg, zpow_natCast]
    push_cast
    field_simp

/-- The conversion of an integer up to `2^53` is exact. -/
theorem toBinary64_natCast (n : Nat) (h : n ≤ 2 ^ 53) : toBinary64 (n : ℚ) = n := by
  rcases Nat.eq_zero_or_pos n with h0 | h0
  · subst h0
    simp [toBinary64]
  · have : (0 : ℚ) < n := by exact_mod_cast h0
    simp only [toBinary64, this, if_true]
    exact roundPos_natCast n h0 h

/-- A positive number rounds to a positive binary64 number. -/
theorem toBinary64_pos (x : ℚ) (hx : 0 < x) : 0 < toBinary64 x := by
  simp only [toBinary64, hx, if_true]
  exact roundPos_pos x hx

/-- The binary64 number nearest to one third. -/
theorem toBinary64_third : toBinary64 (1 / 3) = 6004799503160661 / 18014398509481984 := by
  have hlog : Int.log 2 (1 / 3 : ℚ) = -2 := log2_eq _ _ (by norm_num) (by norm_num) (by norm_num)
  have hpos : (0 : ℚ) < 1 / 3 := by norm_num
  simp only [toBinary64, hpos, if_true, roundPos, hlog]
  have hy : (1 / 3 : ℚ) / 2 ^ ((-2 : ℤ) - 52) = 18014398509481984 / 3 := by
    norm_num [zpow_neg]
  rw [hy]
  have hf : ⌊(18014398509481984 / 3 : ℚ)⌋ = 6004799503160661 := by
    rw [Int.floor_eq_iff]
    constructor <;> norm_num
  have hr : roundHalfEven (18014398509481984 / 3 : ℚ) = 6004799503160661 := by
    unfold roundHalfEven
    rw [hf]
    norm_num
  rw [hr]
  norm_num [zpow_neg]

/-- The divisor of the progress value is not zero when `total` is not. -/
theorem double_of_size_t_ne_zero (total : Nat) (h : total ≠ 0) : double_of_size_t total ≠ 0 := by
  have hp : (0 : ℚ) < (total : ℚ) := by exact_mod_cast Nat.pos_of_ne_zero h
  exact ne_of_gt (toBinary64_pos _ hp)

/-- C7, as stated, fails: the forwarded `report(1, 3, NULL)` evaluates the
command whose progress value is the binary64 number
`6004799503160661 / 2^54`, which is not `1/3`. -/
theorem report_third_not_exact :
    ((tcl_Progress.init 0).report (fun _ _ => TCL_OK) Interp.fresh 40000000 1 3 none).2.1.evals
      = [[TclObj.string "::progressCallBack",
          TclObj.double (some (6004799503160661 / 18014398509481984))]] ∧
    (6004799503160661 / 18014398509481984 : ℚ) ≠ (1 : ℚ) / 3 := by
  refine ⟨?_, by norm_num⟩
  have hfw : ¬ ((1 : Nat) ≠ 3 ∧ (40000000 : Int) - (tcl_Progress.init 0).timer_ < milliseconds 30) := by
    decide
  rw [(report_forwarded_evals (fun _ _ => TCL_OK) (tcl_Progress.init 0) Interp.fresh 40000000 1 3
    none hfw).1]
  have h1 : double_of_size_t 1 = 1 := by
    have := toBinary64_natCast 1 (by norm_num)
    simpa [double_of_size_t] using this
  have h3 : double_of_size_t 3 = 3 := by
    have := toBinary64_natCast 3 (by norm_num)
    simpa [double_of_size_t] using this
  have hm : double_mul 1 1 = 1 := by
    have := toBinary64_natCast 1 (by norm_num)
    simpa [double_mul] using this
  have hd : double_div 1 3 = some (6004799503160661 / 18014398509481984) := by
    simp only [double_div]
    rw [if_neg (by norm_num), toBinary64_third]
  simp only [progressCmd, h1, h3, hm, hd, Tcl_NewStringObj, Tcl_NewDoubleObj, Interp.fresh]
  simp

/-- C7, amended: the command evaluated by a forwarded report is the word
`::progressCallBack`, then a finite progress value, then the message as a
third word exactly when one was supplied: three words with a message, two
without.  The progress value is exactly 1 when `total == 0`; when
`total != 0` it is the binary64 result of `1.0 * done / total`, a division by
a divisor that is not zero, and for `done` and `total` up to `2^53` it is
`done/total` rounded to the nearest binary64 number. -/
theorem report_command_words (script : Script) (self : tcl_Progress) (ti : Interp) (now : Int)
    (done total : Nat) (msg : Option String)
    (hfw : ¬ (done ≠ total ∧ now - self.timer_ < milliseconds 30)) :
    ∃ p : ℚ,
      (self.report script ti now done total msg).2.1.evals
        = ti.evals ++ [TclObj.string "::progressCallBack" :: TclObj.double (some p)
            :: msg.toList.map TclObj.string] ∧
      (total = 0 → p = 1) ∧
      (total ≠ 0 →
        double_of_size_t total ≠ 0 ∧
        p = toBinary64 (double_mul 1 (double_of_size_t done) / double_of_size_t total)) ∧
      (total ≠ 0 → done ≤ 2 ^ 53 → total ≤ 2 ^ 53 →
        p = toBinary64 ((done : ℚ) / (total : ℚ))) ∧
      (TclObj.string "::progressCallBack" :: TclObj.double (some p)
          :: msg.toList.map TclObj.string).length = (if msg.isSome then 3 else 2) := by
  by_cases ht : total = 0
  · refine ⟨1, ?_, fun _ => rfl, fun h => absurd ht h, fun h => absurd ht h, ?_⟩
    · rw [(report_forwarded_evals script self ti now done total msg hfw).1]
      cases msg <;> simp [progressCmd, ht, Tcl_NewStringObj, Tcl_NewDoubleObj]
    · cases msg <;> rfl
  · have hne := double_of_size_t_ne_zero total ht
    refine ⟨toBinary64 (double_mul 1 (double_of_size_t done) / double_of_size_t total), ?_,
      fun h => absurd h ht, fun _ => ⟨hne, rfl⟩, ?_, ?_⟩
    · rw [(report_forwarded_evals script self ti now done total msg hfw).1]
      cases msg <;> simp [progressCmd, ht, double_div, hne, Tcl_NewStringObj, Tcl_NewDoubleObj]
    · intro _ hd hT
      have e1 : double_of_size_t done = (done : ℚ) := toBinary64_natCast done hd
      have e2 : double_of_size_t total = (total : ℚ) := toBinary64_natCast total hT
      have e3 : double_mul 1 (done : ℚ) = (done : ℚ) := by
        have := toBinary64_natCast done hd
        simpa [double_mul] using this
      rw [e1, e2, e3]
    · cases msg <;> rfl

/-- C7, amended, for a report `3/4` with a message, made 40 ms after the
timestamp. -/
theorem report_command_words_witness :
    ∃ p : ℚ,
      ((tcl_Progress.init 0).report (fun _ _ => TCL_OK) Interp.fresh 40000000 3 4
          (some "scan")).2.1.evals
        = Interp.fresh.evals ++ [TclObj.string "::progressCallBack" :: TclObj.double (some p)
            :: (some "scan" : Option String).toList.map TclObj.string] ∧
      (4 = 0 → p = 1) ∧
      (4 ≠ 0 →
        double_of_size_t 4 ≠ 0 ∧
        p = toBinary64 (double_mul 1 (double_of_size_t 3) / double_of_size_t 4)) ∧
      (4 ≠ 0 → 3 ≤ 2 ^ 53 → 4 ≤ 2 ^ 53 → p = toBinary64 (((3 : Nat) : ℚ) / ((4 : Nat) : ℚ))) ∧
      (TclObj.string "::progressCallBack" :: TclObj.double (some p)
          :: (some "scan" : Option String).toList.map TclObj.string).length
        = (if (some "scan" : Option String).isSome then 3 else 2) :=
  report_command_words (fun _ _ => TCL_OK) (tcl_Progress.init 0) Interp.fresh 40000000 3 4
    (some "scan") (by decide)

/-- C8, as stated, fails: a bridge constructed at time 0 receives its only two
reports at 1 ms and at 40 ms, more than 30 ms apart; the first one is not
forwarded, only the second is. -/
theorem twoReports_first_suppressed :
    milliseconds 30 < 40000000 - 1000000 ∧
    (twoReports (fun _ _ => TCL_OK) Interp.fresh 0 1000000 0 100 none 40000000 50 100 none).1.evals
      = [] ∧
    (twoReports (fun _ _ => TCL_OK) Interp.fresh 0 1000000 0 100 none 40000000 50 100 none).2.evals
      = [progressCmd 50 100 none] := by
  refine ⟨by decide, ?_, ?_⟩
  · rfl
  · rfl

/-- C8, amended: when moreover the first report is made at least 30 ms after
the bridge was constructed, or reports `done == total`, both of two reports
made more than 30 ms apart are forwarded, whatever their done/total values. -/
theorem twoReports_both_forwarded (script : Script) (ti : Interp) (t0 t1 t2 : Int)
    (d1 n1 d2 n2 : Nat) (m1 m2 : Option String)
    (hfirst : milliseconds 30 ≤ t1 - t0 ∨ d1 = n1) (hapart : milliseconds 30 < t2 - t1) :
    (twoReports script ti t0 t1 d1 n1 m1 t2 d2 n2 m2).1.evals
      = ti.evals ++ [progressCmd d1 n1 m1] ∧
    (twoReports script ti t0 t1 d1 n1 m1 t2 d2 n2 m2).2.evals
      = ti.evals ++ [progressCmd d1 n1 m1, progressCmd d2 n2 m2] := by
  have h1 : ¬ (d1 ≠ n1 ∧ t1 - (tcl_Progress.init t0).timer_ < milliseconds 30) := by
    rintro ⟨hne, hlt⟩
    rcases hfirst with h | h
    · simp only [tcl_Progress.init] at hlt
      omega
    · exact hne h
  have r1 := report_forwarded_evals script (tcl_Progress.init t0) ti t1 d1 n1 m1 h1
  have h2 : ¬ (d2 ≠ n2 ∧
      t2 - ((tcl_Progress.init t0).report script ti t1 d1 n1 m1).1.timer_ < milliseconds 30) := by
    rintro ⟨_, hlt⟩
    rw [r1.2] at hlt
    omega
  have r2 := report_forwarded_evals script
    ((tcl_Progress.init t0).report script ti t1 d1 n1 m1).1
    ((tcl_Progress.init t0).report script ti t1 d1 n1 m1).2.1 t2 d2 n2 m2 h2
  refine ⟨r1.1, ?_⟩
  show (((tcl_Progress.init t0).report script ti t1 d1 n1 m1).1.report script
    ((tcl_Progress.init t0).report script ti t1 d1 n1 m1).2.1 t2 d2 n2 m2).2.1.evals = _
  rw [r2.1, r1.1]
  simp

/-- C8, amended, for reports at 30 ms and 61 ms after construction. -/
theorem twoReports_both_forwarded_witness :
    (twoReports (fun _ _ => TCL_OK) Interp.fresh 0 30000000 0 100 none 61000000 50 100 none).2.evals
      = Interp.fresh.evals ++ [progressCmd 0 100 none, progressCmd 50 100 none] :=
  (twoReports_both_forwarded (fun _ _ => TCL_OK) Interp.fresh 0 30000000 61000000 0 100 50 100
    none none (Or.inl (by decide)) (by decide)).2


/-- The fill loop succeeds inside both arrays and writes exactly the slots
`i .. i+n-1`. -/
theorem fillArgv_spec (g : TclObj → String) (objv : List TclObj) (n : Nat) :
    ∀ (i : Nat) (argv : List (Option String)),
      i + n ≤ objv.length → i + n ≤ argv.length →
      ∃ out, fillArgv g objv i n argv = some out ∧ out.length = argv.length ∧
        ∀ j, out[j]? = if i ≤ j ∧ j < i + n then (objv[j]?).map (fun o => some (g o))
          else argv[j]? := by
  induction n with
  | zero =>
    intro i argv _ _
    refine ⟨argv, rfl, rfl, fun j => ?_⟩
    have : ¬ (i ≤ j ∧ j < i + 0) := by omega
    rw [if_neg this]
  | succ n ih =>
    intro i argv h1 h2
    have hi : i < objv.length := by omega
    have hget : objv[i]? = some objv[i] := List.getElem?_eq_getElem hi
    obtain ⟨out, ho, hl, hj⟩ := ih (i + 1) (argv.set i (some (g objv[i]))) (by omega)
      (by rw [List.length_set]; omega)
    refine ⟨out, ?_, ?_, ?_⟩
    · have hia : i < argv.length := by omega
      simp only [fillArgv, hget, if_pos hia, ho]
    · rw [hl, List.length_set]
    · intro j
      rw [hj j]
      by_cases hji : j = i
      · subst hji
        have c1 : ¬ (j + 1 ≤ j ∧ j < j + 1 + n) := by omega
        have c2 : j ≤ j ∧ j < j + (n + 1) := by omega
        have hja : j < argv.length := by omega
        rw [if_neg c1, if_pos c2, hget]
        simp [List.getElem?_set, hja]
      · by_cases c : i + 1 ≤ j ∧ j < i + 1 + n
        · have c2 : i ≤ j ∧ j < i + (n + 1) := by omega
          rw [if_pos c, if_pos c2]
        · have c2 : ¬ (i ≤ j ∧ j < i + (n + 1)) := by omega
          rw [if_neg c, if_neg c2]
          have : i ≠ j := fun h => hji h.symm
          simp [List.getElem?_set, this]

/-- C5: for an argument vector of any length `N`, `LegacyCmdFromObjv` returns
exactly what one call of the handler returns when given the same context and
interpreter, the count `N`, and a buffer whose first `N` entries are the
string representations of `objv[0] .. objv[N-1]` in order; the buffer has 16
entries when `N <= 16` and `N` entries otherwise. -/
theorem LegacyCmdFromObjv_forwards (Tcl_GetString : TclObj → String) (fn : LegacyHandler)
    (cd : UI_extra_t) (ti : Interp) (objv : List TclObj) :
    ∃ argv : List (Option String),
      LegacyCmdFromObjv Tcl_GetString fn cd ti (objv.length : Int) objv
        = some (fn cd ti (objv.length : Int) argv) ∧
      argv.length = (if objv.length > 16 then objv.length else 16) ∧
      argv.take objv.length = objv.map (fun o => some (Tcl_GetString o)) ∧
      (∀ i (h : i < objv.length), argv[i]? = some (some (Tcl_GetString (objv.get ⟨i, h⟩)))) := by
  have hbuf : (if (objv.length : Int) > 16 then List.replicate (objv.length : Int).toNat none
        else List.replicate 16 (none : Option String))
      = List.replicate (if objv.length > 16 then objv.length else 16) none := by
    by_cases h : objv.length > 16
    · have h2 : (objv.length : Int) > 16 := by omega
      rw [if_pos h, if_pos h2, Int.toNat_ofNat]
    · have h2 : ¬ (objv.length : Int) > 16 := by omega
      rw [if_neg h, if_neg h2]
  have hcap : objv.length ≤ (if objv.length > 16 then objv.length else 16) := by
    split <;> omega
  obtain ⟨out, ho, hl, hj⟩ := fillArgv_spec Tcl_GetString objv objv.length 0
    (List.replicate (if objv.length > 16 then objv.length else 16) none) (by omega)
    (by rw [List.length_replicate]; omega)
  have hidx : ∀ i (h : i < objv.length), out[i]? = some (some (Tcl_GetString (objv.get ⟨i, h⟩))) := by
    intro i h
    rw [hj i, if_pos (by omega), List.getElem?_eq_getElem h]
    rfl
  refine ⟨out, ?_, ?_, ?_, hidx⟩
  · unfold LegacyCmdFromObjv
    simp only []
    rw [hbuf, Int.toNat_ofNat, ho]
  · rw [hl, List.length_replicate]
  · apply List.ext_getElem?
    intro i
    by_cases h : i < objv.length
    · rw [List.getElem?_take_of_lt h, hidx i h]
      simp [List.getElem?_map, List.getElem?_eq_getElem h]
    · have h1 : objv.length ≤ i := by omega
      rw [List.getElem?_eq_none (by simp; omega), List.getElem?_eq_none (by simp; omega)]


/-- Decrementing the handles `held` appends one `decr` entry per handle, in
order. -/
theorem foldl_decr_refs (held : List TclObj) (ti : Interp) :
    (held.foldl Tcl_DecrRefCount ti).refs = ti.refs ++ held.map RefEvent.decr := by
  induction held generalizing ti with
  | nil => simp
  | cons o rest ih => simp [List.foldl, ih, Tcl_DecrRefCount]

/-- Reading the slots that hold `held` returns `held`. -/
theorem readObjs_held (p : List ObjPtr) : ∀ (held : List TclObj) (i : Nat),
    (∀ j, j < held.length → p[i + j]? = (held[j]?).map some) →
    readObjs p i held.length = some held := by
  intro held
  induction held with
  | nil => intro i _; rfl
  | cons x xs ih =>
    intro i h
    have h0 : p[i]? = some (some x) := by simpa using h 0 (by simp)
    have hrest : readObjs p (i + 1) xs.length = some xs := by
      apply ih
      intro j hj
      have := h (j + 1) (by simpa using hj)
      have e : i + 1 + j = i + (j + 1) := by omega
      rw [e, this]
      simp
    simp [readObjs, h0, hrest]

/-- The clear loop over the slots that hold `held` decrements each of them
once. -/
theorem decrLoop_held (p : List ObjPtr) : ∀ (held : List TclObj) (i : Nat) (ti : Interp),
    (∀ j, j < held.length → p[i + j]? = (held[j]?).map some) →
    decrLoop p i held.length ti = some (held.foldl Tcl_DecrRefCount ti) := by
  intro held
  induction held with
  | nil => intro i ti _; rfl
  | cons x xs ih =>
    intro i ti h
    have h0 : p[i]? = some (some x) := by simpa using h 0 (by simp)
    have hrest := ih (i + 1) (Tcl_DecrRefCount ti x) (by
      intro j hj
      have := h (j + 1) (by simpa using hj)
      have e : i + 1 + j = i + (j + 1) := by omega
      rw [e, this]
      simp)
    simp [decrLoop, h0, hrest]

/-- A new builder holds nothing. -/
theorem Holds_init (max_size : Nat) : Holds (UIList.init max_size) [] := by
  unfold Holds UIList.init
  constructor
  · simp only []
    split <;> rfl
  · intro j hj
    simp at hj

/-- The constructor picks six slots or `max_size` slots. -/
theorem capacity_eq (max_size : Nat) :
    capacity max_size = if max_size ≤ 6 then 6 else max_size := by
  unfold capacity UIList.init
  by_cases h : max_size > 6
  · have h2 : ¬ max_size ≤ 6 := by omega
    simp [h, h2]
  · have h2 : max_size ≤ 6 := by omega
    simp [h, h2]

/-- A push below the capacity and below `INT_MAX` succeeds, keeps the buffer
size and appends the handle. -/
theorem push_back_held (l : UIList) (held : List TclObj) (v : TclObj)
    (hh : Holds l held) (hcap : held.length < l.list_.length)
    (hint : held.length < 2147483647) :
    ∃ l1, l.push_back (some v) = some l1 ∧ l1.list_.length = l.list_.length ∧
      Holds l1 (held ++ [v]) := by
  obtain ⟨hi, hs⟩ := hh
  have hnat : l.i_.toNat = held.length := by rw [hi]; simp
  have hc : 0 ≤ l.i_ ∧ l.i_.toNat < l.list_.length := by
    constructor
    · rw [hi]; exact Int.natCast_nonneg _
    · rw [hnat]; exact hcap
  have hlt : l.i_ < INT_MAX := by
    rw [hi]
    unfold INT_MAX
    omega
  refine ⟨{ l with list_ := l.list_.set l.i_.toNat (some v), i_ := l.i_ + 1 }, ?_, ?_, ?_, ?_⟩
  · simp [UIList.push_back, ASSERT, hc, hlt]
  · simp
  · simp [hi]
  · intro j hj
    simp only [hnat]
    rw [List.getElem?_set]
    by_cases hjl : j = held.length
    · subst hjl
      simp [hcap]
    · have hlt : j < held.length := by
        simp at hj
        omega
      have hne : held.length ≠ j := fun e => hjl e.symm
      rw [if_neg hne, hs j hlt, List.getElem?_append_left hlt]

/-- On a builder holding `held`, `clear()` decrements `held` and empties the
builder. -/
theorem clear_held (l : UIList) (held : List TclObj) (ti : Interp) (hh : Holds l held) :
    l.clear ti = some ({ l with i_ := 0 }, held.foldl Tcl_DecrRefCount ti) ∧
    Holds { l with i_ := 0 } [] := by
  obtain ⟨hi, hs⟩ := hh
  have hnat : l.i_.toNat = held.length := by rw [hi]; simp
  have hd := decrLoop_held l.list_ held 0 ti (by simpa using hs)
  constructor
  · simp [UIList.clear, hnat, hd]
  · exact ⟨rfl, fun j hj => by simp at hj⟩

/-- On a builder holding `held`, `ObjMaker(list)` returns the list of `held`
and empties the builder. -/
theorem ObjMaker_List_held (l : UIList) (held : List TclObj) (hh : Holds l held) :
    ObjMaker_List l = some (TclObj.list held, { l with i_ := 0 }) ∧
    Holds { l with i_ := 0 } [] := by
  obtain ⟨hi, hs⟩ := hh
  have hnat : l.i_.toNat = held.length := by rw [hi]; simp
  have hd := readObjs_held l.list_ held 0 (by simpa using hs)
  constructor
  · simp [ObjMaker_List, Tcl_NewListObj, hnat, hd]
  · exact ⟨rfl, fun j hj => by simp at hj⟩

/-- The code follows the caller's view: after `ops` the builder holds
`heldFrom`, has decremented `clearedFrom` and has made the composites
`compositesFrom`. -/
theorem runOps_sim (m : Nat) : ∀ (ops : List ListOp) (s : ListRun) (held : List TclObj),
    Holds s.list held → m ≤ s.list.list_.length → m ≤ 2147483647 →
    withinBound m held.length ops = true →
    ∃ s1, runOps s ops = some s1 ∧ Holds s1.list (heldFrom held ops) ∧
      s1.list.list_.length = s.list.list_.length ∧
      s1.ti = (clearedFrom held ops).foldl Tcl_DecrRefCount s.ti ∧
      s1.made = s.made ++ (compositesFrom held ops).map TclObj.list := by
  intro ops
  induction ops with
  | nil =>
    intro s held hh _ _ _
    exact ⟨s, rfl, hh, rfl, rfl, by simp [compositesFrom]⟩
  | cons op ops ih =>
    intro s held hh hm hmi hb
    cases op with
    | push_back v =>
      simp only [withinBound, Bool.and_eq_true, decide_eq_true_eq] at hb
      obtain ⟨l1, hp, hl, hh1⟩ := push_back_held s.list held v hh (by omega) (by omega)
      obtain ⟨s1, hr, hh2, hl2, hti, hmade⟩ := ih { s with list := l1 } (held ++ [v]) hh1
        (by simpa [hl] using hm) hmi (by simpa using hb.2)
      refine ⟨s1, ?_, hh2, ?_, hti, hmade⟩
      · simp [runOps, ListRun.step, hp, hr]
      · rw [hl2]; exact hl
    | clear =>
      simp only [withinBound] at hb
      obtain ⟨hc, hh1⟩ := clear_held s.list held s.ti hh
      obtain ⟨s1, hr, hh2, hl2, hti, hmade⟩ := ih
        { s with list := { s.list with i_ := 0 }, ti := held.foldl Tcl_DecrRefCount s.ti } []
        hh1 hm hmi (by simpa using hb)
      refine ⟨s1, ?_, hh2, hl2, ?_, hmade⟩
      · simp [runOps, ListRun.step, hc, hr]
      · rw [hti]
        simp [clearedFrom, List.foldl_append]
    | ObjMaker =>
      simp only [withinBound] at hb
      obtain ⟨hc, hh1⟩ := ObjMaker_List_held s.list held hh
      obtain ⟨s1, hr, hh2, hl2, hti, hmade⟩ := ih
        { s with list := { s.list with i_ := 0 }, made := s.made ++ [TclObj.list held] } []
        hh1 hm hmi (by simpa using hb)
      refine ⟨s1, ?_, hh2, hl2, hti, ?_⟩
      · simp [runOps, ListRun.step, hc, hr]
      · rw [hmade]
        simp [compositesFrom]

/-- A bounded sequence is bounded on each of its two parts. -/
theorem withinBound_split (m : Nat) : ∀ (pre suf : List ListOp) (held : List TclObj),
    withinBound m held.length (pre ++ suf) = true →
    withinBound m held.length pre = true ∧
      withinBound m (heldFrom held pre).length suf = true := by
  intro pre
  induction pre with
  | nil => intro suf held h; exact ⟨rfl, h⟩
  | cons op pre ih =>
    intro suf held h
    cases op with
    | push_back v =>
      have e : (held ++ [v]).length = held.length + 1 := by simp
      simp only [List.cons_append, withinBound, Bool.and_eq_true, decide_eq_true_eq] at h ⊢
      obtain ⟨h1, h2⟩ := h
      rw [← e] at h2
      obtain ⟨a, b⟩ := ih suf (held ++ [v]) h2
      rw [e] at a
      exact ⟨⟨h1, a⟩, b⟩
    | clear =>
      simp only [List.cons_append, withinBound] at h ⊢
      exact ih suf [] h
    | ObjMaker =>
      simp only [List.cons_append, withinBound] at h ⊢
      exact ih suf [] h

/-- The handles cleared or left to the destructor are the pushes whose fate
is release. -/
theorem released_fates : ∀ (ops : List ListOp) (held : List TclObj),
    clearedFrom held ops ++ heldFrom held ops
      = (if nextReleases ops then held else []) ++ releasedPushes ops := by
  intro ops
  induction ops with
  | nil => intro held; simp [clearedFrom, heldFrom, nextReleases, releasedPushes, pushFates]
  | cons op ops ih =>
    intro held
    cases op with
    | push_back v =>
      have := ih (held ++ [v])
      simp only [clearedFrom, heldFrom, nextReleases, releasedPushes, pushFates] at this ⊢
      rw [this]
      by_cases hn : nextReleases ops = true
      · simp [hn, List.filter_cons]
      · simp [hn, List.filter_cons]
    | clear =>
      have := ih []
      simp only [clearedFrom, heldFrom, nextReleases, releasedPushes, pushFates] at this ⊢
      rw [List.append_assoc, this]
      simp
    | ObjMaker =>
      have := ih []
      simp only [clearedFrom, heldFrom, nextReleases, releasedPushes, pushFates] at this ⊢
      rw [this]
      simp

/-- The handles in the composites are the pushes whose fate is transfer. -/
theorem transferred_fates : ∀ (ops : List ListOp) (held : List TclObj),
    (compositesFrom held ops).flatten
      = (if nextReleases ops then [] else held) ++ transferredPushes ops := by
  intro ops
  induction ops with
  | nil => intro held; simp [compositesFrom, nextReleases, transferredPushes, pushFates]
  | cons op ops ih =>
    intro held
    cases op with
    | push_back v =>
      have := ih (held ++ [v])
      simp only [compositesFrom, nextReleases, transferredPushes, pushFates] at this ⊢
      rw [this]
      by_cases hn : nextReleases ops = true
      · simp [hn, List.filter_cons]
      · simp [hn, List.filter_cons]
    | clear =>
      have := ih []
      simp only [compositesFrom, nextReleases, transferredPushes, pushFates] at this ⊢
      rw [this]
      simp
    | ObjMaker =>
      have := ih []
      simp only [compositesFrom, nextReleases, transferredPushes, pushFates] at this ⊢
      rw [List.flatten_cons, this]
      simp

/-- Every push has a fate. -/
theorem pushFates_handles (ops : List ListOp) :
    (pushFates ops).map (fun p => p.1) = pushedHandles ops := by
  induction ops with
  | nil => rfl
  | cons op ops ih => cases op <;> simp [pushFates, pushedHandles, ih]

/-- Every prefix of a bounded sequence runs, and the builder then holds
`heldFrom`. -/
theorem reachable_state (m b : Nat) (hcap : b ≤ capacity m) (hint : b ≤ 2147483647)
    (ti : Interp)
    (ops pre suf : List ListOp) (hb : withinBound b 0 ops = true) (hops : ops = pre ++ suf) :
    ∃ s, runOps { list := UIList.init m, ti := ti, made := [] } pre = some s ∧
      Holds s.list (heldFrom [] pre) ∧ s.list.list_.length = capacity m ∧
      withinBound b (heldFrom [] pre).length suf = true := by
  subst hops
  obtain ⟨hpre, hsuf⟩ := withinBound_split b pre suf [] hb
  obtain ⟨s, hr, hh, hl, _, _⟩ := runOps_sim b pre
    { list := UIList.init m, ti := ti, made := [] } [] (Holds_init m) hcap hint hpre
  exact ⟨s, hr, hh, hl, hsuf⟩

/-- In a bounded sequence the number of handles held stays within the bound. -/
theorem heldFrom_length_le (m : Nat) : ∀ (ops : List ListOp) (held : List TclObj),
    held.length ≤ m → withinBound m held.length ops = true →
    (heldFrom held ops).length ≤ m := by
  intro ops
  induction ops with
  | nil => intro held h _; exact h
  | cons op ops ih =>
    intro held h hb
    cases op with
    | push_back v =>
      have e : (held ++ [v]).length = held.length + 1 := by simp
      simp only [withinBound, Bool.and_eq_true, decide_eq_true_eq] at hb
      exact ih (held ++ [v]) (by omega) (by rw [e]; exact hb.2)
    | clear => exact ih [] (Nat.zero_le m) hb
    | ObjMaker => exact ih [] (Nat.zero_le m) hb

/-- The caller's view of pushing `vs` and then calling `ObjMaker(list)`. -/
theorem pushes_then_ObjMaker (m : Nat) : ∀ (vs held : List TclObj),
    held.length + vs.length ≤ m →
    withinBound m held.length (vs.map ListOp.push_back ++ [ListOp.ObjMaker]) = true ∧
    heldFrom held (vs.map ListOp.push_back ++ [ListOp.ObjMaker]) = [] ∧
    clearedFrom held (vs.map ListOp.push_back ++ [ListOp.ObjMaker]) = [] ∧
    compositesFrom held (vs.map ListOp.push_back ++ [ListOp.ObjMaker]) = [held ++ vs] := by
  intro vs
  induction vs with
  | nil =>
    intro held _
    simp [withinBound, heldFrom, clearedFrom, compositesFrom]
  | cons v vs ih =>
    intro held h
    have e : (held ++ [v]).length = held.length + 1 := by simp
    simp only [List.length_cons] at h
    obtain ⟨a, b, c, d⟩ := ih (held ++ [v]) (by omega)
    rw [e] at a
    refine ⟨?_, ?_, ?_, ?_⟩
    · simp only [List.map_cons, List.cons_append, withinBound, Bool.and_eq_true,
        decide_eq_true_eq]
      exact ⟨by omega, a⟩
    · simpa [heldFrom] using b
    · simpa [clearedFrom] using c
    · simpa [compositesFrom] using d


/-- Running a sequence of calls in two parts. -/
theorem runOps_append (s : ListRun) (a b : List ListOp) :
    runOps s (a ++ b) = (runOps s a).bind (fun s1 => runOps s1 b) := by
  induction a generalizing s with
  | nil => rfl
  | cons op a ih =>
    simp only [List.cons_append, runOps]
    cases s.step op with
    | none => rfl
    | some s1 => exact ih s1

/-- The caller's view of `k` pushes of the same handle. -/
theorem replicate_pushes (b : Nat) (v : TclObj) : ∀ (k : Nat) (held : List TclObj),
    held.length + k ≤ b →
    withinBound b held.length (List.replicate k (ListOp.push_back v)) = true ∧
    heldFrom held (List.replicate k (ListOp.push_back v)) = held ++ List.replicate k v := by
  intro k
  induction k with
  | zero => intro held _; simp [withinBound, heldFrom]
  | succ k ih =>
    intro held h
    have e : (held ++ [v]).length = held.length + 1 := by simp
    obtain ⟨a, c⟩ := ih (held ++ [v]) (by omega)
    rw [e] at a
    constructor
    · simp only [List.replicate_succ, withinBound, Bool.and_eq_true, decide_eq_true_eq]
      exact ⟨by omega, a⟩
    · simp only [List.replicate_succ, heldFrom]
      rw [c, List.append_assoc]
      rfl

/-- On a builder declared for `2^31` handles the `2^31`-th push in a row has no
result: the count is `INT_MAX` and cannot be incremented. -/
theorem pushes_overflow (v : TclObj) (ti : Interp) (rest : List ListOp) :
    runOps { list := UIList.init 2147483648, ti := ti, made := [] }
      (List.replicate 2147483647 (ListOp.push_back v) ++ ListOp.push_back v :: rest) = none := by
  have hcap : capacity 2147483648 = 2147483648 := by
    rw [capacity_eq]
    norm_num
  obtain ⟨hb, hheld⟩ := replicate_pushes 2147483647 v 2147483647 [] (by simp)
  obtain ⟨s, hr, hh, hl, _, _⟩ := runOps_sim 2147483647
    (List.replicate 2147483647 (ListOp.push_back v))
    { list := UIList.init 2147483648, ti := ti, made := [] } [] (Holds_init 2147483648)
    (by
      show 2147483647 ≤ capacity 2147483648
      rw [hcap]
      norm_num)
    (le_refl _) hb
  rw [hheld, List.nil_append] at hh
  have hi : s.list.i_ = 2147483647 := by
    rw [hh.1, List.length_replicate]
    rfl
  have hlen : s.list.list_.length = 2147483648 := by
    rw [hl]
    exact hcap
  have hpush : s.list.push_back (some v) = none := by
    have hc : 0 ≤ s.list.i_ ∧ s.list.i_.toNat < s.list.list_.length := by
      rw [hi, hlen]
      constructor
      · norm_num
      · norm_num
    have hn : ¬ s.list.i_ < INT_MAX := by
      rw [hi]
      unfold INT_MAX
      norm_num
    simp only [UIList.push_back, ASSERT, Option.isSome_some, if_true, if_pos hc, if_neg hn]
  rw [runOps_append, hr]
  simp only [Option.bind, runOps, ListRun.step, hpush]

/-- C2, as stated, fails: with a builder declared for `2^31` handles and
`n = 2^31` handles pushed, within the declared maximum, the last push has no
result, because the `int` count cannot pass `INT_MAX`; no composite is
built. -/
theorem ObjMaker_List_count_overflow :
    (List.replicate 2147483648 (TclObj.wideInt 0)).length ≤ 2147483648 ∧
    runOps { list := UIList.init 2147483648, ti := Interp.fresh, made := [] }
      ((List.replicate 2147483648 (TclObj.wideInt 0)).map ListOp.push_back
        ++ [ListOp.ObjMaker]) = none := by
  constructor
  · rw [List.length_replicate]
  · have e : (List.replicate 2147483648 (TclObj.wideInt 0)).map ListOp.push_back
        ++ [ListOp.ObjMaker]
        = List.replicate 2147483647 (ListOp.push_back (TclObj.wideInt 0))
          ++ ListOp.push_back (TclObj.wideInt 0) :: [ListOp.ObjMaker] := by
      rw [List.map_replicate, show (2147483648 : Nat) = 2147483647 + 1 from rfl,
        List.replicate_succ', List.append_assoc]
      rfl
    rw [e]
    exact pushes_overflow _ _ _

/-- C2, amended: pushing the handles `vs`, at most `max_size` and at most
`INT_MAX` of them, onto a new builder and calling `ObjMaker(list)` yields one
composite whose elements are exactly `vs` in push order and leaves the count
at 0; the builder can then be used again in the same way; with nothing pushed
the composite is the empty list. -/
theorem ObjMaker_List_in_push_order (m : Nat) (ti : Interp) (vs : List TclObj)
    (hn : vs.length ≤ m) (hi : (vs.length : Int) ≤ INT_MAX) :
    ∃ s, runOps { list := UIList.init m, ti := ti, made := [] }
        (vs.map ListOp.push_back ++ [ListOp.ObjMaker]) = some s ∧
      s.made = [TclObj.list vs] ∧ s.list.i_ = 0 ∧ s.ti = ti ∧
      (∀ ws : List TclObj, ws.length ≤ m → (ws.length : Int) ≤ INT_MAX →
        ∃ s2, runOps s (ws.map ListOp.push_back ++ [ListOp.ObjMaker]) = some s2 ∧
          s2.made = [TclObj.list vs, TclObj.list ws] ∧ s2.list.i_ = 0) ∧
      ObjMaker_List (UIList.init m) = some (TclObj.list [], UIList.init m) := by
  have hcap : min m 2147483647 ≤ capacity m := by
    rw [capacity_eq]
    split <;> omega
  have hvs : vs.length ≤ min m 2147483647 := by
    unfold INT_MAX at hi
    omega
  obtain ⟨hb, hh0, hc0, hm0⟩ := pushes_then_ObjMaker (min m 2147483647) vs []
    (by simpa using hvs)
  obtain ⟨s, hr, hh, hl, hti, hmade⟩ := runOps_sim (min m 2147483647)
    (vs.map ListOp.push_back ++ [ListOp.ObjMaker])
    { list := UIList.init m, ti := ti, made := [] } [] (Holds_init m) hcap (by omega) hb
  rw [hh0] at hh
  rw [hc0] at hti
  rw [hm0] at hmade
  refine ⟨s, hr, by simpa using hmade, by simpa using hh.1, by simpa using hti, ?_, ?_⟩
  · intro ws hw hwi
    have hws : ws.length ≤ min m 2147483647 := by
      unfold INT_MAX at hwi
      omega
    obtain ⟨hb2, hh2, _, hm2⟩ := pushes_then_ObjMaker (min m 2147483647) ws []
      (by simpa using hws)
    obtain ⟨s2, hr2, hhs2, _, _, hmade2⟩ := runOps_sim (min m 2147483647)
      (ws.map ListOp.push_back ++ [ListOp.ObjMaker]) s [] hh (by rw [hl]; exact hcap)
      (by omega) hb2
    rw [hh2] at hhs2
    rw [hm2, hmade] at hmade2
    exact ⟨s2, hr2, by simpa using hmade2, by simpa using hhs2.1⟩
  · have := (ObjMaker_List_held (UIList.init m) [] (Holds_init m)).1
    rw [this]
    have hi0 : (UIList.init m).i_ = 0 := by simpa using (Holds_init m).1
    cases hinit : UIList.init m with
    | mk list_ i_ onHeap =>
      rw [hinit] at hi0
      simp only at hi0
      simp [hi0]

/-- C2, amended, for two handles pushed onto a builder declared for two. -/
theorem ObjMaker_List_in_push_order_witness :
    ∃ s, runOps { list := UIList.init 2, ti := Interp.fresh, made := [] }
        ([TclObj.wideInt 1, TclObj.string "a"].map ListOp.push_back ++ [ListOp.ObjMaker])
        = some s ∧
      s.made = [TclObj.list [TclObj.wideInt 1, TclObj.string "a"]] ∧ s.list.i_ = 0 :=
  match ObjMaker_List_in_push_order 2 Interp.fresh [TclObj.wideInt 1, TclObj.string "a"]
      (by decide) (by decide) with
  | ⟨s, h1, h2, h3, _⟩ => ⟨s, h1, h2, h3⟩

/-- C9, as stated, fails: on a builder declared for one handle, whose buffer
has six slots, seven pushes in a row followed by the destruction have no
defined outcome: the seventh push writes outside the buffer. -/
theorem lifetime_seven_pushes_undefined :
    lifetime 1 Interp.fresh [ListOp.push_back (TclObj.wideInt 1),
      ListOp.push_back (TclObj.wideInt 2), ListOp.push_back (TclObj.wideInt 3),
      ListOp.push_back (TclObj.wideInt 4), ListOp.push_back (TclObj.wideInt 5),
      ListOp.push_back (TclObj.wideInt 6), ListOp.push_back (TclObj.wideInt 7)] = none := by
  rfl

/-- C9, amended: over a builder's whole life, for every sequence of calls in
which the number of handles held at one time never exceeds the buffer capacity
nor `INT_MAX`, the builder's reference-count calls are exactly one decrement
for each pushed handle still held at a `clear()` or at destruction, in order,
and none for the handles handed to a composite by `ObjMaker(list)`; the
composites contain exactly those other handles; every pushed handle has one of
the two fates.  At every point `clear()` leaves the count at 0, and a `clear()`
right after a `clear()` or after `ObjMaker(list)` decrements nothing. -/
theorem lifetime_releases_once (m : Nat) (ti : Interp) (ops : List ListOp)
    (hb : withinBound (min (capacity m) INT_MAX.toNat) 0 ops = true) :
    (∃ (ti1 : Interp) (segs : List (List TclObj)),
      lifetime m ti ops = some (ti1, segs.map TclObj.list) ∧
      ti1.refs = ti.refs ++ (releasedPushes ops).map RefEvent.decr ∧
      segs.flatten = transferredPushes ops) ∧
    (pushFates ops).map (fun p => p.1) = pushedHandles ops ∧
    (∀ pre suf, ops = pre ++ suf →
      ∃ s l1 ti1 res l2,
        runOps { list := UIList.init m, ti := ti, made := [] } pre = some s ∧
        s.list.clear s.ti = some (l1, ti1) ∧ l1.i_ = 0 ∧
        ti1.refs = s.ti.refs ++ (heldFrom [] pre).map RefEvent.decr ∧
        l1.clear ti1 = some (l1, ti1) ∧
        ObjMaker_List s.list = some (res, l2) ∧ l2.i_ = 0 ∧
        l2.clear s.ti = some (l2, s.ti)) := by
  have hmax : INT_MAX.toNat = 2147483647 := rfl
  have hc1 : min (capacity m) INT_MAX.toNat ≤ capacity m := Nat.min_le_left _ _
  have hc2 : min (capacity m) INT_MAX.toNat ≤ 2147483647 := by
    rw [hmax]
    exact Nat.min_le_right _ _
  refine ⟨?_, pushFates_handles ops, ?_⟩
  · obtain ⟨s, hr, hh, _, hsuf⟩ := reachable_state m _ hc1 hc2 ti ops ops [] hb (by simp)
    obtain ⟨s1, hr1, _, _, hti, hmade⟩ := runOps_sim _ ops
      { list := UIList.init m, ti := ti, made := [] } [] (Holds_init m) hc1 hc2 hb
    rw [hr] at hr1
    cases hr1
    obtain ⟨hc, _⟩ := clear_held s.list (heldFrom [] ops) s.ti hh
    refine ⟨(heldFrom [] ops).foldl Tcl_DecrRefCount s.ti, compositesFrom [] ops, ?_, ?_, ?_⟩
    · simp [lifetime, hr, UIList.destroy, hc, hmade]
    · rw [foldl_decr_refs, hti, foldl_decr_refs, List.append_assoc, ← List.map_append,
        released_fates]
      simp [nextReleases]
    · rw [transferred_fates]
      simp
  · intro pre suf hops
    obtain ⟨s, hr, hh, _, _⟩ := reachable_state m _ hc1 hc2 ti ops pre suf hb hops
    obtain ⟨hc, hh1⟩ := clear_held s.list (heldFrom [] pre) s.ti hh
    obtain ⟨hc4, _⟩ := clear_held { s.list with i_ := 0 } []
      ((heldFrom [] pre).foldl Tcl_DecrRefCount s.ti) hh1
    obtain ⟨ho, hh2⟩ := ObjMaker_List_held s.list (heldFrom [] pre) hh
    obtain ⟨hc3, _⟩ := clear_held { s.list with i_ := 0 } [] s.ti hh2
    exact ⟨s, _, _, _, _, hr, hc, rfl, foldl_decr_refs _ _, by simpa using hc4, ho, rfl,
      by simpa using hc3⟩

/-- C9, amended, for a builder declared for two handles: two pushes handed to
a composite, one push cleared, a second `clear()`, and one push left to the
destructor; the builder decrements the third and the fourth handle, once
each. -/
theorem lifetime_releases_once_witness :
    withinBound (min (capacity 2) INT_MAX.toNat) 0 [ListOp.push_back (TclObj.wideInt 1),
      ListOp.push_back (TclObj.wideInt 2), ListOp.ObjMaker,
      ListOp.push_back (TclObj.wideInt 3), ListOp.clear, ListOp.clear,
      ListOp.push_back (TclObj.wideInt 4)] = true ∧
    ∃ (ti1 : Interp) (segs : List (List TclObj)),
      lifetime 2 Interp.fresh [ListOp.push_back (TclObj.wideInt 1),
        ListOp.push_back (TclObj.wideInt 2), ListOp.ObjMaker,
        ListOp.push_back (TclObj.wideInt 3), ListOp.clear, ListOp.clear,
        ListOp.push_back (TclObj.wideInt 4)] = some (ti1, segs.map TclObj.list) ∧
      ti1.refs = [RefEvent.decr (TclObj.wideInt 3), RefEvent.decr (TclObj.wideInt 4)] ∧
      segs.flatten = [TclObj.wideInt 1, TclObj.wideInt 2] :=
  ⟨by decide, (lifetime_releases_once 2 Interp.fresh _ (by decide)).1⟩

/-- C10, as stated, fails: on a builder declared for `m = 2^31` handles, `2^31`
pushes in a row never hold more than `m` handles, yet the last push has no
result: the count is `INT_MAX` and its increment leaves the range of `int`. -/
theorem index_count_overflow :
    withinBound 2147483648 0
      (List.replicate 2147483648 (ListOp.push_back (TclObj.wideInt 0))) = true ∧
    runOps { list := UIList.init 2147483648, ti := Interp.fresh, made := [] }
      (List.replicate 2147483648 (ListOp.push_back (TclObj.wideInt 0))) = none := by
  constructor
  · exact (replicate_pushes 2147483648 (TclObj.wideInt 0) 2147483648 [] (by simp)).1
  · have e : List.replicate 2147483648 (ListOp.push_back (TclObj.wideInt 0))
        = List.replicate 2147483647 (ListOp.push_back (TclObj.wideInt 0))
          ++ ListOp.push_back (TclObj.wideInt 0) :: [] := by
      rw [show (2147483648 : Nat) = 2147483647 + 1 from rfl, List.replicate_succ']
    rw [e]
    exact pushes_overflow _ _ _

/-- C10, amended: the buffer of a builder constructed with `max_size = m` has 6
slots when `m <= 6` and `m` slots otherwise; during any sequence of calls in
which never more than `m` handles, and never more than `INT_MAX`, are held at
one time, the count stays between 0 and that capacity after every call, and
every `push_back` finds the count below the capacity, so it writes inside the
buffer. -/
theorem index_within_capacity (m : Nat) :
    capacity m = (if m ≤ 6 then 6 else m) ∧
    ∀ (ti : Interp) (ops : List ListOp), withinBound (min m INT_MAX.toNat) 0 ops = true →
      ∀ pre suf, ops = pre ++ suf →
        ∃ s, runOps { list := UIList.init m, ti := ti, made := [] } pre = some s ∧
          s.list.list_.length = capacity m ∧
          0 ≤ s.list.i_ ∧ s.list.i_ ≤ (capacity m : Int) ∧
          (∀ v rest, suf = ListOp.push_back v :: rest →
            s.list.i_ < (capacity m : Int) ∧
            ∃ l1, s.list.push_back (some v) = some l1 ∧ l1.list_.length = capacity m) := by
  refine ⟨capacity_eq m, ?_⟩
  intro ti ops hb pre suf hops
  have hmax : INT_MAX.toNat = 2147483647 := rfl
  rw [hmax] at hb
  have hmc : m ≤ capacity m := by
    rw [capacity_eq]
    split <;> omega
  have hcap : min m 2147483647 ≤ capacity m := le_trans (Nat.min_le_left _ _) hmc
  have hint : min m 2147483647 ≤ 2147483647 := Nat.min_le_right _ _
  obtain ⟨s, hr, hh, hl, hsuf⟩ := reachable_state m _ hcap hint ti ops pre suf hb hops
  have hpre : withinBound (min m 2147483647) 0 pre = true := by
    subst hops
    exact (withinBound_split _ pre suf [] hb).1
  have hle : (heldFrom [] pre).length ≤ min m 2147483647 :=
    heldFrom_length_le _ pre [] (Nat.zero_le _) hpre
  refine ⟨s, hr, hl, ?_, ?_, ?_⟩
  · rw [hh.1]
    exact Int.natCast_nonneg _
  · rw [hh.1]
    exact_mod_cast le_trans hle hcap
  · intro v rest hs
    rw [hs] at hsuf
    simp only [withinBound, Bool.and_eq_true, decide_eq_true_eq] at hsuf
    have hlt : (heldFrom [] pre).length < capacity m := by omega
    constructor
    · rw [hh.1]
      exact_mod_cast hlt
    · obtain ⟨l1, hp, hl1, _⟩ := push_back_held s.list (heldFrom [] pre) v hh
        (by rw [hl]; exact hlt) (by omega)
      exact ⟨l1, hp, by rw [hl1, hl]⟩

/-- C10, amended, for a builder declared for 7 handles, before its third
push. -/
theorem index_within_capacity_witness :
    capacity 7 = 7 ∧
    ∃ s, runOps { list := UIList.init 7, ti := Interp.fresh, made := [] }
        [ListOp.push_back (TclObj.wideInt 1), ListOp.push_back (TclObj.wideInt 2)] = some s ∧
      s.list.list_.length = capacity 7 ∧ 0 ≤ s.list.i_ ∧ s.list.i_ ≤ (capacity 7 : Int) :=
  ⟨(index_within_capacity 7).1,
   match (index_within_capacity 7).2 Interp.fresh
      [ListOp.push_back (TclObj.wideInt 1), ListOp.push_back (TclObj.wideInt 2),
        ListOp.push_back (TclObj.wideInt 3)] (by decide)
      [ListOp.push_back (TclObj.wideInt 1), ListOp.push_back (TclObj.wideInt 2)]
      [ListOp.push_back (TclObj.wideInt 3)] rfl with
   | ⟨s, h1, h2, h3, h4, _⟩ => ⟨s, h1, h2, h3, h4⟩⟩

end UI_impl
